import Mathlib

/-!
# Shallow embedding of the realre-ingestion persistent versioned store

This file embeds the SCD2 (slowly-changing-dimension, type 2) store of
`src/manager/db.py` (class `DBAdapter`) in Lean and proves the specified
properties about it.

Modelling conventions:

* A Python record (`Mapping[str, Any]`) is an association list from field
  names to optional scalar values; scalars are modelled as `String`
  (the store binds them into `TEXT` columns and hashes their `str()` form).
  `record.get(f)` (absent or `None` both give `None`) and `record[f]`
  (absent raises `KeyError`) are modelled separately.
* An entity-table row keeps the inserted column values (`fields`) together
  with the four versioning columns.  SQLite's `AUTOINCREMENT` rowid is the
  monotone counter `nextId`.
* `sha256` in `_compute_hash` concatenates the utf-8 bytes of the
  normalized field values and digests them; the digest is a fixed function
  of the concatenation, so the hash is modelled as that concatenation
  (two rows compare hash-equal in the source iff their concatenations are
  equal, up to sha256 collisions).
* `SELECT ... WHERE k=? AND ... AND is_current=1 ORDER BY id DESC LIMIT 1`
  follows SQL comparison semantics: a `NULL` on either side never matches.
* The batch loop of `upsert_scd2` runs inside one transaction
  (`with self._conn:`); on an exception every change of the loop is rolled
  back, while the `ensure_scd2_table` call made *before* the transaction
  persists.  Exceptions are modelled explicitly: `KeyError` from
  `row[field]` and the `NOT NULL` violation SQLite raises when a key
  column is bound to `NULL`.
-/

/-- A flat record: association list of field name to optional scalar value. -/
structure Record where
  pairs : List (String × Option String)
deriving Repr, DecidableEq

/-- Python `record.get(field)`: `none` when the field is absent or `None`. -/
def Record.get (r : Record) (f : String) : Option String :=
  match r.pairs.find? (fun p => p.1 == f) with
  | some p => p.2
  | none => none

/-- Whether the field is present in the record (`field in record`). -/
def Record.has (r : Record) (f : String) : Bool :=
  (r.pairs.find? (fun p => p.1 == f)).isSome

/-- One stored row of an entity table. -/
structure Row where
  id : Nat
  fields : Record
  valid_from : String
  valid_to : String
  is_current : Bool
  row_hash : String
deriving Repr, DecidableEq

/-- An entity table: stored rows plus the AUTOINCREMENT counter. -/
structure EntityTable where
  rows : List Row
  nextId : Nat
deriving Repr, DecidableEq

/-- Exceptions that can escape the upsert loop. -/
inductive StepError where
  | keyError (field : String)
  | notNullViolation
deriving Repr, DecidableEq

/-- Outcome of `upsert_scd2`: normal return with the new table state and the
inserted count, or a propagated exception together with the table state after
the transaction rollback (the idempotent table creation is not rolled back). -/
inductive UpsertResult where
  | ok (table : Option EntityTable) (inserted : Nat)
  | err (e : StepError) (table : Option EntityTable)
deriving Repr, DecidableEq

/-- The table state an `UpsertResult` leaves behind. -/
def UpsertResult.table : UpsertResult → Option EntityTable
  | .ok t _ => t
  | .err _ t => t

/-- Rows of a possibly-absent table (an absent table stores no rows). -/
def rowsOf : Option EntityTable → List Row
  | none => []
  | some t => t.rows

/-- `CREATE TABLE IF NOT EXISTS`: an existing table is untouched, an absent
one is created empty with the rowid counter at 1. -/
def ensureTable : Option EntityTable → EntityTable
  | none => { rows := [], nextId := 1 }
  | some t => t

/-- `_compute_hash`: normalize each listed field (`None`/missing become `""`),
concatenate in declared order and digest.  The sha256 digest is modelled by
the concatenation itself (see the module docstring). -/
def _compute_hash (record : Record) (fields : List String) : String :=
  String.join (fields.map (fun f => (record.get f).getD ""))

/-- `[row[field] for field in key_fields]`: the list of key values, or the
`KeyError` for the first missing field. -/
def keyValuesOf (r : Record) : List String → Except StepError (List (Option String))
  | [] => .ok []
  | f :: rest =>
    match r.pairs.find? (fun p => p.1 == f) with
    | none => .error (.keyError f)
    | some p =>
      match keyValuesOf r rest with
      | .error e => .error e
      | .ok vs => .ok (p.2 :: vs)

/-- SQL `k1=? AND k2=? AND ...` over the key columns of a stored row's
fields; a `NULL` on either side of `=` never matches. -/
def keyMatches (fields : Record) : List String → List (Option String) → Bool
  | f :: kf, v :: kv =>
    (match v, fields.get f with
     | some s, some t => s == t
     | _, _ => false) && keyMatches fields kf kv
  | [], [] => true
  | _, _ => false

/-- `ORDER BY id DESC LIMIT 1`: the row with the largest `id`, if any. -/
def maxIdRow (l : List Row) : Option Row :=
  l.foldl
    (fun acc r =>
      match acc with
      | none => some r
      | some b => if b.id < r.id then some r else some b)
    none

/-- The `SELECT id, row_hash FROM t WHERE <keys> AND is_current=1
ORDER BY id DESC LIMIT 1` lookup of the current row for a key tuple. -/
def findCurrent (rows : List Row) (kf : List String) (kv : List (Option String)) : Option Row :=
  maxIdRow (rows.filter (fun row => row.is_current && keyMatches row.fields kf kv))

/-- `UPDATE t SET valid_to=?, is_current=0 WHERE id=?`. -/
def closeRow (rows : List Row) (cid : Nat) (now : String) : List Row :=
  rows.map (fun x => if x.id = cid then { x with valid_to := now, is_current := false } else x)

/-- The open-ended `valid_to` sentinel of a freshly inserted current row. -/
def sentinelValidTo : String := "9999-12-31T00:00:00+00:00"

/-- The row the `INSERT` statement of `upsert_scd2` builds for a record:
all key+attribute column values (`row.get(col)`), `valid_from = now`,
`valid_to` the sentinel, `is_current = 1`, and the computed hash. -/
def mkNewRow (kf af : List String) (now : String) (r : Record) (nid : Nat) : Row :=
  let cols := kf ++ af
  { id := nid
    fields := { pairs := cols.zip (cols.map (fun c => r.get c)) }
    valid_from := now
    valid_to := sentinelValidTo
    is_current := true
    row_hash := _compute_hash r af }

/-- The `INSERT` step: SQLite rejects a `NULL` bound to a `NOT NULL` key
column, otherwise the new row is appended with the next rowid. -/
def insertNew (kf af : List String) (now : String) (r : Record) (rows : List Row)
    (nid : Nat) : Except StepError (List Row × Nat) :=
  if (kf.map (fun f => r.get f)).any (fun v => v.isNone) then
    .error .notNullViolation
  else
    .ok (rows ++ [mkNewRow kf af now r nid], nid + 1)

/-- The `for row in rows:` loop of `upsert_scd2`, carrying the table rows,
the rowid counter and the inserted count; the first exception aborts it. -/
def upsertLoop (kf af : List String) (now : String) :
    List Record → List Row → Nat → Nat → Except StepError (List Row × Nat × Nat)
  | [], rows, nid, ins => .ok (rows, nid, ins)
  | r :: rest, rows, nid, ins =>
    let rhash := _compute_hash r af
    match keyValuesOf r kf with
    | .error e => .error e
    | .ok kv =>
      match findCurrent rows kf kv with
      | some c =>
        if c.row_hash == rhash then
          upsertLoop kf af now rest rows nid ins
        else
          match insertNew kf af now r (closeRow rows c.id now) nid with
          | .error e => .error e
          | .ok (rows2, nid2) => upsertLoop kf af now rest rows2 nid2 (ins + 1)
      | none =>
        match insertNew kf af now r rows nid with
        | .error e => .error e
        | .ok (rows2, nid2) => upsertLoop kf af now rest rows2 nid2 (ins + 1)

/-- Attribute-field inference: every field of the first record that is not a
key field, in record order. -/
def inferAttrFields (r0 : Record) (kf : List String) : List String :=
  (r0.pairs.map Prod.fst).filter (fun f => !kf.contains f)

/-- `upsert_scd2(table, records, key_fields, attribute_fields=None)`.

An empty batch returns 0 before touching the schema.  Otherwise
`attribute_fields or []` falls back to inference from the first record when
the argument is `None` or empty, the table is idempotently created, and the
batch loop runs in one transaction: on an exception all loop changes are
rolled back while the created table persists, and the exception propagates. -/
def upsert_scd2 (table0 : Option EntityTable) (records : List Record)
    (kf : List String) (af : Option (List String)) (now : String) : UpsertResult :=
  match records with
  | [] => .ok table0 0
  | r0 :: rest =>
    let afInit := af.getD []
    let afU := if afInit.isEmpty then inferAttrFields r0 kf else afInit
    let t1 := ensureTable table0
    match upsertLoop kf afU now (r0 :: rest) t1.rows t1.nextId 0 with
    | .ok (rows2, nid2, ins) => .ok (some { rows := rows2, nextId := nid2 }) ins
    | .error e => .err e (some t1)

/-- One row of the `ingestion_history` audit table. -/
structure HistoryEvent where
  id : Nat
  job_name : String
  event_type : String
  status : String
  started_at : String
  ended_at : Option String
  duration_ms : Option Int
  row_count : Option Int
  details : Option String
deriving Repr, DecidableEq

/-- The `ingestion_history` table with its AUTOINCREMENT counter. -/
structure HistoryDB where
  events : List HistoryEvent
  nextId : Nat
deriving Repr, DecidableEq

/-- `log_history`: append one event row and return its new identifier.
`details` arrives already serialized to an optional string (`json.dumps` of a
mapping is abstracted to the resulting string); `started_at or _utcnow_iso()`
falls back to the current time for `None` and for the empty string. -/
def log_history (db : HistoryDB) (job_name event_type status : String)
    (started_at ended_at : Option String) (duration_ms row_count : Option Int)
    (details : Option String) (now : String) : HistoryDB × Nat :=
  let ev : HistoryEvent :=
    { id := db.nextId
      job_name := job_name
      event_type := event_type
      status := status
      started_at := match started_at with
        | some s => if s = "" then now else s
        | none => now
      ended_at := ended_at
      duration_ms := duration_ms
      row_count := row_count
      details := details }
  ({ events := db.events ++ [ev], nextId := db.nextId + 1 }, db.nextId)

/-- Most-recent-first ordering on history events: larger identifier first. -/
def byIdDesc (a b : HistoryEvent) : Prop := b.id ≤ a.id

instance : DecidableRel byIdDesc := fun a b => Nat.decLe b.id a.id

instance : IsTotal HistoryEvent byIdDesc :=
  ⟨fun a b => (Nat.le_total b.id a.id).imp id id⟩

instance : IsTrans HistoryEvent byIdDesc :=
  ⟨fun _ _ _ hab hbc => Nat.le_trans hbc hab⟩

/-- SQLite `LIMIT ?`: a negative bound means "no limit at all". -/
def sqliteLimit (limit : Int) (l : List HistoryEvent) : List HistoryEvent :=
  if limit < 0 then l else l.take limit.toNat

/-- `fetch_history(limit)`: `SELECT * FROM ingestion_history ORDER BY id DESC
LIMIT ?`.  Read-only: the function only computes a value from the stored
state and returns it, the state is not part of the result. -/
def fetch_history (db : HistoryDB) (limit : Int) : List HistoryEvent :=
  sqliteLimit limit (List.insertionSort byIdDesc db.events)

/-- The error class the specification prescribes for identifier-validation
failures in `ensure_scd2_table`. -/
inductive SchemaError where
  | invalidIdentifier (name : String)
deriving Repr, DecidableEq

/-- Modelled from the spec: the strict identifier grammar caller-supplied
names must satisfy before being used in schema DDL — letters, digits,
underscore, and not empty (the source contains no such check; this
definition exists to state the claim against the source). -/
def isValidIdentifier (s : String) : Bool :=
  !s.isEmpty && s.toList.all (fun c => c.isAlpha || c.isDigit || c == '_')

/-- The column-definition part of the `CREATE TABLE` DDL, following the
interpolated table name (surrounding whitespace of the Python f-string is
normalized). -/
def createTableBody (kf af : List String) : String :=
  let key_cols := String.intercalate ", " (kf.map (fun name => name ++ " TEXT NOT NULL"))
  let attr_cols := String.intercalate ", " (af.map (fun name => name ++ " TEXT"))
  " ( id INTEGER PRIMARY KEY AUTOINCREMENT, " ++ key_cols ++ ", " ++ attr_cols
    ++ ", valid_from TEXT NOT NULL, valid_to TEXT NOT NULL, is_current INTEGER NOT NULL, row_hash TEXT NOT NULL );"

/-- The DDL statements `ensure_scd2_table` interpolates and executes: the
`CREATE TABLE IF NOT EXISTS`, the composite key index and the `is_current`
index. -/
def ensure_scd2_table_stmts (table : String) (kf af : List String) : List String :=
  [ "CREATE TABLE IF NOT EXISTS " ++ table ++ createTableBody kf af,
    "CREATE INDEX IF NOT EXISTS idx_" ++ table ++ "_" ++ String.intercalate "_" kf
      ++ " ON " ++ table ++ " (" ++ String.intercalate ", " kf ++ ");",
    "CREATE INDEX IF NOT EXISTS idx_" ++ table ++ "_current ON " ++ table ++ "(is_current);" ]

/-- `ensure_scd2_table` as observed through the statements it runs.  The
return type leaves room for the `SchemaError` the specification prescribes
for invalid identifiers; the source performs no validation whatsoever, so
the function is translated as unconditionally succeeding. -/
def ensure_scd2_table (table : String) (kf af : List String) :
    Except SchemaError (List String) :=
  .ok (ensure_scd2_table_stmts table kf af)

/-! ## Concrete sample data used by witnesses -/

/-- Sample record: account `A1` with balance `100`. -/
def recA1 : Record := { pairs := [("account_id", some "A1"), ("balance", some "100")] }

/-- Sample record: account `B7` with the same balance `100`. -/
def recB7 : Record := { pairs := [("account_id", some "B7"), ("balance", some "100")] }

/-- Sample record: account `A1` with a changed balance `200`. -/
def recA1' : Record := { pairs := [("account_id", some "A1"), ("balance", some "200")] }

/-- Sample record missing the `account_id` key field. -/
def recNoKey : Record := { pairs := [("balance", some "300")] }

/-! ## Claim theorems -/

/-- Claim C8: calling `upsert_scd2` with an empty records sequence returns 0
and performs no schema operation — the table stays absent if it was absent
and is unchanged if it was present. -/
theorem upsert_scd2_empty_batch (table0 : Option EntityTable) (kf : List String)
    (af : Option (List String)) (now : String) :
    upsert_scd2 table0 [] kf af now = .ok table0 0 ∧
    (upsert_scd2 table0 [] kf af now).table = table0 :=
  ⟨rfl, rfl⟩

/-- Claim C10: passing `attribute_fields` as an explicit empty sequence
behaves identically to omitting the argument (`attribute_fields or []`
collapses both to the inference path), and for a non-empty batch the
inferred attribute fields are exactly the fields of the first record that
are not key fields — so calling with that inferred list is also
identical. -/
theorem upsert_scd2_empty_attr_eq_none (table0 : Option EntityTable)
    (records : List Record) (kf : List String) (now : String) :
    upsert_scd2 table0 records kf (some []) now = upsert_scd2 table0 records kf none now ∧
    ∀ r0 rest, upsert_scd2 table0 (r0 :: rest) kf none now
      = upsert_scd2 table0 (r0 :: rest) kf (some (inferAttrFields r0 kf)) now := by
  constructor
  · cases records <;> rfl
  · intro r0 rest
    cases h : inferAttrFields r0 kf with
    | nil => simp [upsert_scd2, h]
    | cons a l => simp [upsert_scd2, h]

/-- Claim C5: the row hash is a function of the attribute-field values only —
whenever two records agree (under the missing/None-to-empty-string
normalization baked into `Record.get`) on every declared attribute field,
their hashes coincide, regardless of any key-field values. -/
theorem compute_hash_attr_only (r1 r2 : Record) (af : List String)
    (h : ∀ f ∈ af, r1.get f = r2.get f) :
    _compute_hash r1 af = _compute_hash r2 af := by
  unfold _compute_hash
  congr 1
  induction af with
  | nil => rfl
  | cons f rest ih =>
    simp only [List.map_cons, List.mem_cons]
    have hf := h f (by simp)
    rw [hf, ih (fun g hg => h g (by simp [hg]))]

/-- Witness for C5: two records with the same balance but different account
identifiers hash identically. -/
theorem compute_hash_attr_only_witness :
    (∀ f ∈ ["balance"], recA1.get f = recB7.get f) ∧
    _compute_hash recA1 ["balance"] = _compute_hash recB7 ["balance"] :=
  ⟨by decide, compute_hash_attr_only recA1 recB7 ["balance"] (by decide)⟩

/-- Counterexample for C3: a name that plainly fails the spec's identifier
grammar is nevertheless accepted by `ensure_scd2_table` — no `SchemaError`
is raised, the DDL is built with the raw name. -/
theorem ensure_scd2_table_no_validation :
    isValidIdentifier "accounts; DROP TABLE x" = false ∧
    ensure_scd2_table "accounts; DROP TABLE x" ["account_id"] ["balance"]
      = .ok (ensure_scd2_table_stmts "accounts; DROP TABLE x" ["account_id"] ["balance"]) :=
  ⟨by decide, rfl⟩

/-- Claim C3 amended: `ensure_scd2_table` performs no identifier validation
at all — for every caller-supplied table name, valid or not, it succeeds,
and the `CREATE TABLE` DDL contains the name interpolated verbatim. -/
theorem ensure_scd2_table_interpolates (table : String) (kf af : List String) :
    ensure_scd2_table table kf af = .ok (ensure_scd2_table_stmts table kf af) ∧
    ∃ pre post, (ensure_scd2_table_stmts table kf af).head? = some (pre ++ table ++ post) :=
  ⟨rfl, ⟨"CREATE TABLE IF NOT EXISTS ", createTableBody kf af, rfl⟩⟩

/-! ## Helper lemmas about the current-row lookup and the row counts -/

/-- Number of stored rows that are current and match the given key tuple —
the size of the result set of `SELECT ... WHERE <keys> AND is_current=1`. -/
def currentCount (rows : List Row) (kf : List String) (kv : List (Option String)) : Nat :=
  (rows.filter (fun row => row.is_current && keyMatches row.fields kf kv)).length

lemma maxIdRow_aux_mem (l : List Row) :
    ∀ (acc : Option Row) (c : Row),
      l.foldl (fun acc r => match acc with
        | none => some r
        | some b => if b.id < r.id then some r else some b) acc = some c →
      c ∈ l ∨ acc = some c := by
  induction l with
  | nil => intro acc c h; exact Or.inr h
  | cons r l ih =>
    intro acc c h
    rcases ih _ c h with hmem | hacc
    · exact Or.inl (List.mem_cons_of_mem _ hmem)
    · cases acc with
      | none =>
        simp only at hacc
        exact Or.inl (Option.some_inj.mp hacc ▸ List.mem_cons_self _ _)
      | some b =>
        simp only at hacc
        by_cases hlt : b.id < r.id
        · rw [if_pos hlt] at hacc
          exact Or.inl (Option.some_inj.mp hacc ▸ List.mem_cons_self _ _)
        · rw [if_neg hlt] at hacc
          exact Or.inr hacc

lemma maxIdRow_mem {l : List Row} {c : Row} (h : maxIdRow l = some c) : c ∈ l := by
  rcases maxIdRow_aux_mem l none c h with hmem | hacc
  · exact hmem
  · cases hacc

lemma maxIdRow_aux_ne_none (l : List Row) :
    ∀ (b : Row),
      l.foldl (fun acc r => match acc with
        | none => some r
        | some b => if b.id < r.id then some r else some b) (some b) ≠ none := by
  induction l with
  | nil => intro b h; cases h
  | cons r l ih =>
    intro b
    simp only [List.foldl_cons]
    by_cases hlt : b.id < r.id
    · simpa [hlt] using ih r
    · simpa [hlt] using ih b

lemma maxIdRow_cons_ne_none (r : Row) (l : List Row) : maxIdRow (r :: l) ≠ none := by
  unfold maxIdRow
  simpa using maxIdRow_aux_ne_none l r

lemma findCurrent_some {rows : List Row} {kf : List String} {kv : List (Option String)}
    {c : Row} (h : findCurrent rows kf kv = some c) :
    c ∈ rows ∧ c.is_current = true ∧ keyMatches c.fields kf kv = true := by
  have hmem := maxIdRow_mem h
  have := List.mem_filter.mp hmem
  exact ⟨this.1, by simpa using this.2⟩

lemma findCurrent_none {rows : List Row} {kf : List String} {kv : List (Option String)}
    (h : findCurrent rows kf kv = none) : currentCount rows kf kv = 0 := by
  unfold findCurrent at h
  unfold currentCount
  cases hf : rows.filter (fun row => row.is_current && keyMatches row.fields kf kv) with
  | nil => rfl
  | cons r l => exact absurd (hf ▸ h) (maxIdRow_cons_ne_none r l)

lemma length_filter_map_le {α : Type} (l : List α) (f : α → α) (p : α → Bool)
    (h : ∀ x, p (f x) = true → p x = true) :
    ((l.map f).filter p).length ≤ (l.filter p).length := by
  induction l with
  | nil => simp
  | cons x l ih =>
    simp only [List.map_cons, List.filter_cons]
    by_cases hx : p (f x)
    · rw [if_pos hx, if_pos (h x hx)]
      simpa using ih
    · rw [if_neg hx]
      split
      · exact Nat.le_succ_of_le ih
      · exact ih

lemma currentCount_closeRow_le (rows : List Row) (cid : Nat) (now : String)
    (kf : List String) (kv : List (Option String)) :
    currentCount (closeRow rows cid now) kf kv ≤ currentCount rows kf kv := by
  unfold currentCount closeRow
  apply length_filter_map_le
  intro x hx
  by_cases hid : x.id = cid
  · simp [hid] at hx
  · simpa [hid] using hx

lemma eq_of_mem_of_length_le_one {α : Type} {l : List α} (h : l.length ≤ 1) :
    ∀ a ∈ l, ∀ b ∈ l, a = b := by
  match l with
  | [] => simp
  | [x] =>
    intro a ha b hb
    simp only [List.mem_singleton] at ha hb
    rw [ha, hb]
  | x :: y :: l => simp at h

lemma currentCount_closeRow_eq_zero {rows : List Row} {kf : List String}
    {kv : List (Option String)} {c : Row} (now : String)
    (hmem : c ∈ rows) (hcur : c.is_current = true)
    (hmatch : keyMatches c.fields kf kv = true)
    (hle : currentCount rows kf kv ≤ 1) :
    currentCount (closeRow rows c.id now) kf kv = 0 := by
  unfold currentCount closeRow
  rw [List.length_eq_zero]
  rw [List.filter_eq_nil_iff]
  intro y hy
  rcases List.mem_map.mp hy with ⟨x, hxmem, rfl⟩
  by_cases hid : x.id = c.id
  · simp [hid]
  · rw [if_neg hid]
    intro hpx
    have hxf : x ∈ rows.filter (fun row => row.is_current && keyMatches row.fields kf kv) :=
      List.mem_filter.mpr ⟨hxmem, hpx⟩
    have hcf : c ∈ rows.filter (fun row => row.is_current && keyMatches row.fields kf kv) :=
      List.mem_filter.mpr ⟨hmem, by simp [hcur, hmatch]⟩
    exact hid (congrArg Row.id (eq_of_mem_of_length_le_one hle x hxf c hcf))

lemma currentCount_append_single (rows : List Row) (nr : Row)
    (kf : List String) (kv : List (Option String)) :
    currentCount (rows ++ [nr]) kf kv
      = currentCount rows kf kv
        + (if nr.is_current && keyMatches nr.fields kf kv then 1 else 0) := by
  unfold currentCount
  rw [List.filter_append, List.length_append]
  congr 1
  by_cases h : nr.is_current && keyMatches nr.fields kf kv
  · simp [h]
  · simp [h]

/-! ## Helper lemmas about inserted rows and key values -/

lemma get_zip_map (g : String → Option String) (f : String) :
    ∀ cols : List String, f ∈ cols →
      Record.get { pairs := cols.zip (cols.map g) } f = g f := by
  intro cols
  induction cols with
  | nil => intro h; cases h
  | cons c cols ih =>
    intro hf
    unfold Record.get
    simp only [List.map_cons, List.zip_cons_cons, List.find?_cons]
    by_cases hcf : c == f
    · simp only [hcf]
      have : c = f := by simpa using hcf
      rw [this]
    · simp only [hcf]
      have hmem : f ∈ cols := by
        rcases List.mem_cons.mp hf with h | h
        · exact absurd (by simp [h]) hcf
        · exact h
      have := ih hmem
      unfold Record.get at this
      exact this

lemma mkNewRow_get (kf af : List String) (now : String) (r : Record) (nid : Nat)
    (f : String) (hf : f ∈ kf ++ af) :
    (mkNewRow kf af now r nid).fields.get f = r.get f := by
  unfold mkNewRow
  exact get_zip_map (fun c => r.get c) f (kf ++ af) hf

lemma keyMatches_self (fields r : Record) :
    ∀ kfl : List String,
      (∀ f ∈ kfl, fields.get f = r.get f) →
      (∀ f ∈ kfl, (r.get f).isSome = true) →
      keyMatches fields kfl (kfl.map (fun f => r.get f)) = true := by
  intro kfl
  induction kfl with
  | nil => intro _ _; rfl
  | cons f kfl ih =>
    intro hget hsome
    rcases Option.isSome_iff_exists.mp (hsome f (by simp)) with ⟨s, hs⟩
    simp only [List.map_cons, keyMatches]
    rw [hget f (by simp), hs]
    simp only [BEq.refl, Bool.true_and]
    exact ih (fun g hg => hget g (by simp [hg])) (fun g hg => hsome g (by simp [hg]))

lemma keyMatches_inj (fields r : Record) :
    ∀ (kfl : List String) (kv : List (Option String)),
      keyMatches fields kfl kv = true →
      (∀ f ∈ kfl, fields.get f = r.get f) →
      kv = kfl.map (fun f => r.get f) := by
  intro kfl
  induction kfl with
  | nil =>
    intro kv hm _
    cases kv with
    | nil => rfl
    | cons v kv => simp [keyMatches] at hm
  | cons f kfl ih =>
    intro kv hm hget
    cases kv with
    | nil => simp [keyMatches] at hm
    | cons v kv =>
      simp only [keyMatches, Bool.and_eq_true] at hm
      obtain ⟨hhead, htail⟩ := hm
      have hv : v = r.get f := by
        cases hvv : v with
        | none => rw [hvv] at hhead; simp at hhead
        | some s =>
          rw [hvv] at hhead
          cases hgf : fields.get f with
          | none => rw [hgf] at hhead; simp at hhead
          | some t =>
            rw [hgf] at hhead
            have hst : s = t := by simpa using hhead
            rw [← hget f (by simp), hgf, hst]
      rw [List.map_cons, hv, ih kv htail (fun g hg => hget g (by simp [hg]))]

lemma keyValuesOf_ok (r : Record) :
    ∀ (kfl : List String) (kv : List (Option String)),
      keyValuesOf r kfl = .ok kv → kv = kfl.map (fun f => r.get f) := by
  intro kfl
  induction kfl with
  | nil =>
    intro kv h
    simp only [keyValuesOf] at h
    exact (Except.ok.inj h).symm
  | cons f kfl ih =>
    intro kv h
    simp only [keyValuesOf] at h
    cases hfind : r.pairs.find? (fun p => p.1 == f) with
    | none => rw [hfind] at h; cases h
    | some p =>
      rw [hfind] at h
      cases hrec : keyValuesOf r kfl with
      | error e => rw [hrec] at h; cases h
      | ok vs =>
        rw [hrec] at h
        have hkv : kv = p.2 :: vs := (Except.ok.inj h).symm
        have hget : r.get f = p.2 := by unfold Record.get; rw [hfind]
        rw [hkv, List.map_cons, hget, ih vs hrec]

lemma keyValuesOf_ok_of_isSome (r : Record) :
    ∀ kfl : List String,
      (∀ f ∈ kfl, (r.get f).isSome = true) →
      keyValuesOf r kfl = .ok (kfl.map (fun f => r.get f)) := by
  intro kfl
  induction kfl with
  | nil => intro _; rfl
  | cons f kfl ih =>
    intro hsome
    simp only [keyValuesOf, List.map_cons]
    cases hfind : r.pairs.find? (fun p => p.1 == f) with
    | none =>
      have : r.get f = none := by unfold Record.get; rw [hfind]
      have := hsome f (by simp)
      rw [this] at *
      simp_all
    | some p =>
      rw [ih (fun g hg => hsome g (by simp [hg]))]
      have hget : r.get f = p.2 := by unfold Record.get; rw [hfind]
      rw [hget]

lemma keyValuesOf_error_of_missing (r : Record) :
    ∀ (kfl : List String) (f : String),
      f ∈ kfl → r.has f = false →
      ∃ f', keyValuesOf r kfl = .error (.keyError f') := by
  intro kfl
  induction kfl with
  | nil => intro f h; cases h
  | cons g kfl ih =>
    intro f hf hmiss
    cases hfind : r.pairs.find? (fun p => p.1 == g) with
    | none =>
      refine ⟨g, ?_⟩
      simp only [keyValuesOf]
      rw [hfind]
    | some p =>
      have hfg : f ≠ g := by
        intro hfg
        have : r.has f = true := by
          unfold Record.has
          rw [hfg, hfind]
          rfl
        rw [this] at hmiss
        cases hmiss
      have hmem : f ∈ kfl := by
        rcases List.mem_cons.mp hf with h | h
        · exact absurd h hfg
        · exact h
      rcases ih f hmem hmiss with ⟨f', hrec⟩
      refine ⟨f', ?_⟩
      simp only [keyValuesOf]
      rw [hfind, hrec]

/-! ## Claim C1: the single-current invariant is preserved -/

lemma upsertLoop_preserves_single_current (kf af : List String) (now : String)
    (kv : List (Option String)) :
    ∀ (recs : List Record) (rows : List Row) (nid ins : Nat),
      currentCount rows kf kv ≤ 1 →
      ∀ (rows2 : List Row) (nid2 ins2 : Nat),
        upsertLoop kf af now recs rows nid ins = .ok (rows2, nid2, ins2) →
        currentCount rows2 kf kv ≤ 1 := by
  intro recs
  induction recs with
  | nil =>
    intro rows nid ins h rows2 nid2 ins2 heq
    simp only [upsertLoop, Except.ok.injEq, Prod.mk.injEq] at heq
    rw [← heq.1]
    exact h
  | cons r rest ih =>
    intro rows nid ins h rows2 nid2 ins2 heq
    simp only [upsertLoop] at heq
    cases hkvr : keyValuesOf r kf with
    | error e => rw [hkvr] at heq; cases heq
    | ok kvr =>
      rw [hkvr] at heq
      dsimp only [] at heq
      have hkvr_eq : kvr = kf.map (fun f => r.get f) := keyValuesOf_ok r kf kvr hkvr
      cases hfc : findCurrent rows kf kvr with
      | some c =>
        rw [hfc] at heq
        dsimp only [] at heq
        by_cases hh : c.row_hash == _compute_hash r af
        · rw [if_pos hh] at heq
          exact ih rows nid ins h rows2 nid2 ins2 heq
        · rw [if_neg hh] at heq
          cases hins : insertNew kf af now r (closeRow rows c.id now) nid with
          | error e => rw [hins] at heq; dsimp only [] at heq; cases heq
          | ok pr =>
            obtain ⟨rowsMid, nidMid⟩ := pr
            rw [hins] at heq
            dsimp only [] at heq
            unfold insertNew at hins
            split at hins
            · cases hins
            · have hrowsMid : rowsMid
                  = closeRow rows c.id now ++ [mkNewRow kf af now r nid] :=
                ((Prod.mk.injEq _ _ _ _).mp (Except.ok.inj hins)).1.symm
              have hcount : currentCount rowsMid kf kv ≤ 1 := by
                rw [hrowsMid, currentCount_append_single]
                by_cases hm : (mkNewRow kf af now r nid).is_current
                    && keyMatches (mkNewRow kf af now r nid).fields kf kv
                · have hmatch : keyMatches (mkNewRow kf af now r nid).fields kf kv = true :=
                    ((Bool.and_eq_true _ _).mp hm).2
                  have hkv_eq : kv = kf.map (fun f => r.get f) :=
                    keyMatches_inj (mkNewRow kf af now r nid).fields r kf kv hmatch
                      (fun f hf => mkNewRow_get kf af now r nid f (List.mem_append_left af hf))
                  have hfc' : findCurrent rows kf kv = some c := by
                    rw [hkv_eq, ← hkvr_eq]; exact hfc
                  obtain ⟨hcmem, hccur, hcmatch⟩ := findCurrent_some hfc'
                  rw [currentCount_closeRow_eq_zero now hcmem hccur hcmatch h, if_pos hm]
                · rw [if_neg hm]
                  simpa using Nat.le_trans (currentCount_closeRow_le rows c.id now kf kv) h
              exact ih rowsMid nidMid (ins + 1) hcount rows2 nid2 ins2 heq
      | none =>
        rw [hfc] at heq
        dsimp only [] at heq
        cases hins : insertNew kf af now r rows nid with
        | error e => rw [hins] at heq; dsimp only [] at heq; cases heq
        | ok pr =>
          obtain ⟨rowsMid, nidMid⟩ := pr
          rw [hins] at heq
          dsimp only [] at heq
          unfold insertNew at hins
          split at hins
          · cases hins
          · have hrowsMid : rowsMid = rows ++ [mkNewRow kf af now r nid] :=
              ((Prod.mk.injEq _ _ _ _).mp (Except.ok.inj hins)).1.symm
            have hcount : currentCount rowsMid kf kv ≤ 1 := by
              rw [hrowsMid, currentCount_append_single]
              by_cases hm : (mkNewRow kf af now r nid).is_current
                  && keyMatches (mkNewRow kf af now r nid).fields kf kv
              · have hmatch : keyMatches (mkNewRow kf af now r nid).fields kf kv = true :=
                  ((Bool.and_eq_true _ _).mp hm).2
                have hkv_eq : kv = kf.map (fun f => r.get f) :=
                  keyMatches_inj (mkNewRow kf af now r nid).fields r kf kv hmatch
                    (fun f hf => mkNewRow_get kf af now r nid f (List.mem_append_left af hf))
                have hfc' : findCurrent rows kf kv = none := by
                  rw [hkv_eq, ← hkvr_eq]; exact hfc
                rw [findCurrent_none hfc', if_pos hm]
              · rw [if_neg hm]
                simpa using h
            exact ih rowsMid nidMid (ins + 1) hcount rows2 nid2 ins2 heq

lemma ensureTable_rows (table0 : Option EntityTable) :
    (ensureTable table0).rows = rowsOf table0 := by
  cases table0 <;> rfl

/-- Claim C1: for every entity table, batch (of any size and content),
attribute-field argument and key tuple, if at most one row is current for
that key tuple before `upsert_scd2`, then at most one row is current for it
afterwards — on normal return as well as after a rolled-back exception. -/
theorem upsert_scd2_single_current (table0 : Option EntityTable) (records : List Record)
    (kf : List String) (af : Option (List String)) (now : String)
    (kv : List (Option String))
    (h : currentCount (rowsOf table0) kf kv ≤ 1) :
    currentCount (rowsOf (upsert_scd2 table0 records kf af now).table) kf kv ≤ 1 := by
  cases records with
  | nil => simpa [upsert_scd2, UpsertResult.table] using h
  | cons r0 rest =>
    simp only [upsert_scd2]
    have hrows := ensureTable_rows table0
    cases hloop : upsertLoop kf
        (if (af.getD []).isEmpty then inferAttrFields r0 kf else af.getD []) now
        (r0 :: rest) (ensureTable table0).rows (ensureTable table0).nextId 0 with
    | error e =>
      simp only [hloop, UpsertResult.table, rowsOf]
      rw [hrows]
      exact h
    | ok out =>
      obtain ⟨rows2, nid2, ins2⟩ := out
      simp only [hloop, UpsertResult.table, rowsOf]
      exact upsertLoop_preserves_single_current kf _ now kv (r0 :: rest)
        (ensureTable table0).rows (ensureTable table0).nextId 0 (hrows ▸ h)
        rows2 nid2 ins2 hloop

/-- Sample stored row: the first (current) version of account `A1`. -/
def rowA1v1 : Row :=
  { id := 1
    fields := recA1
    valid_from := "2024-01-01T00:00:00+00:00"
    valid_to := sentinelValidTo
    is_current := true
    row_hash := "100" }

/-- Sample entity table: one current row for account `A1`. -/
def tblA : EntityTable := { rows := [rowA1v1], nextId := 2 }

/-- Witness for C1 at a concrete input: a table holding one current `A1` row,
upserting a changed `A1` record plus a new `B7` record. -/
theorem upsert_scd2_single_current_witness :
    currentCount (rowsOf (some tblA)) ["account_id"] [some "A1"] ≤ 1 ∧
    currentCount
      (rowsOf (upsert_scd2 (some tblA) [recA1', recB7] ["account_id"] none
        "2024-02-01T00:00:00+00:00").table) ["account_id"] [some "A1"] ≤ 1 :=
  ⟨by decide,
   upsert_scd2_single_current (some tblA) [recA1', recB7] ["account_id"] none
     "2024-02-01T00:00:00+00:00" [some "A1"] (by decide)⟩

/-! ## Claim C2: a missing key field aborts and rolls back the whole batch -/

lemma upsertLoop_error_of_missing_key (kf af : List String) (now : String) :
    ∀ recs : List Record,
      (∃ r ∈ recs, ∃ f ∈ kf, r.has f = false) →
      (∀ r ∈ recs, ∀ f ∈ kf, r.has f = true → (r.get f).isSome = true) →
      ∀ (rows : List Row) (nid ins : Nat),
        ∃ f', upsertLoop kf af now recs rows nid ins = .error (.keyError f') := by
  intro recs
  induction recs with
  | nil => intro ha _ _ _ _; simp at ha
  | cons r rest ih =>
    intro ha hb rows nid ins
    by_cases hall : ∀ f ∈ kf, r.has f = true
    · -- the head record has every key field; by `hb` their values are
      -- non-null, so the step succeeds and the failure comes from the tail
      have hsome : ∀ f ∈ kf, (r.get f).isSome = true :=
        fun f hf => hb r (by simp) f hf (hall f hf)
      have hkv := keyValuesOf_ok_of_isSome r kf hsome
      have hrest : ∃ r' ∈ rest, ∃ f ∈ kf, r'.has f = false := by
        rcases ha with ⟨r', hr'mem, f0, hf0, hmiss⟩
        rcases List.mem_cons.mp hr'mem with hr' | hr'
        · rw [hr'] at hmiss
          rw [hall f0 hf0] at hmiss
          cases hmiss
        · exact ⟨r', hr', f0, hf0, hmiss⟩
      have hbrest : ∀ r' ∈ rest, ∀ f ∈ kf, r'.has f = true → (r'.get f).isSome = true :=
        fun r' hr' => hb r' (by simp [hr'])
      have hnn : ((kf.map (fun f => r.get f)).any fun v => v.isNone) = false := by
        rw [List.any_eq_false]
        intro v hv
        rcases List.mem_map.mp hv with ⟨f, hf, rfl⟩
        simp only [Option.isNone_iff_eq_none]
        exact Option.ne_none_iff_isSome.mpr (hsome f hf)
      have hins : ∀ rows' : List Row, insertNew kf af now r rows' nid
          = .ok (rows' ++ [mkNewRow kf af now r nid], nid + 1) := by
        intro rows'
        unfold insertNew
        rw [hnn]
        simp
      simp only [upsertLoop]
      rw [hkv]
      dsimp only []
      cases hfc : findCurrent rows kf (kf.map fun f => r.get f) with
      | some c =>
        dsimp only []
        by_cases hh : c.row_hash == _compute_hash r af
        · rw [if_pos hh]
          exact ih hrest hbrest rows nid ins
        · rw [if_neg hh, hins (closeRow rows c.id now)]
          dsimp only []
          exact ih hrest hbrest _ _ _
      | none =>
        dsimp only []
        rw [hins rows]
        dsimp only []
        exact ih hrest hbrest _ _ _
    · -- the head record itself lacks a key field: `row[field]` raises
      push_neg at hall
      rcases hall with ⟨f0, hf0, hmiss⟩
      have hmiss' : r.has f0 = false := by
        cases hh : r.has f0
        · rfl
        · exact absurd hh hmiss
      rcases keyValuesOf_error_of_missing r kf f0 hf0 hmiss' with ⟨f', herr⟩
      refine ⟨f', ?_⟩
      simp only [upsertLoop]
      rw [herr]

/-- Counterexample for C2 (as stated): on a fresh (absent) table, a batch
with one valid record followed by one missing the key field aborts with a
`KeyError` (no `UpsertError` class exists in the code) and every row is
rolled back — but the table itself, created before the transaction, stays
created, so the state is *not* exactly as before the call. -/
theorem upsert_scd2_missing_key_creates_table :
    upsert_scd2 none [recA1, recNoKey] ["account_id"] none "2024-01-01T00:00:00+00:00"
      = .err (.keyError "account_id") (some { rows := [], nextId := 1 }) ∧
    (upsert_scd2 none [recA1, recNoKey] ["account_id"] none
        "2024-01-01T00:00:00+00:00").table ≠ none := by
  constructor
  · decide
  · decide

lemma keyValuesOf_ok_has (r : Record) :
    ∀ (kfl : List String) (kv : List (Option String)),
      keyValuesOf r kfl = .ok kv → ∀ f ∈ kfl, r.has f = true := by
  intro kfl
  induction kfl with
  | nil => intro kv _ f hf; cases hf
  | cons g rest ih =>
    intro kv h f hf
    simp only [keyValuesOf] at h
    cases hfind : r.pairs.find? (fun p => p.1 == g) with
    | none => rw [hfind] at h; cases h
    | some p =>
      rw [hfind] at h
      cases hrec : keyValuesOf r rest with
      | error e => rw [hrec] at h; cases h
      | ok vs =>
        rcases List.mem_cons.mp hf with hfg | hfr
        · subst hfg
          unfold Record.has
          rw [hfind]
          rfl
        · exact ih vs hrec f hfr

lemma upsertLoop_error_of_missing_key_any (kf af : List String) (now : String) :
    ∀ recs : List Record,
      (∃ r ∈ recs, ∃ f ∈ kf, r.has f = false) →
      ∀ (rows : List Row) (nid ins : Nat),
        ∃ e, upsertLoop kf af now recs rows nid ins = .error e := by
  intro recs
  induction recs with
  | nil => intro ha _ _ _; simp at ha
  | cons r rest ih =>
    intro ha rows nid ins
    cases hkv : keyValuesOf r kf with
    | error e =>
      refine ⟨e, ?_⟩
      simp only [upsertLoop]
      rw [hkv]
    | ok kv =>
      have hhas := keyValuesOf_ok_has r kf kv hkv
      have hrest : ∃ r' ∈ rest, ∃ f ∈ kf, r'.has f = false := by
        rcases ha with ⟨r', hr'mem, f0, hf0, hmiss⟩
        rcases List.mem_cons.mp hr'mem with hr' | hr'
        · rw [hr'] at hmiss
          rw [hhas f0 hf0] at hmiss
          cases hmiss
        · exact ⟨r', hr', f0, hf0, hmiss⟩
      simp only [upsertLoop]
      rw [hkv]
      dsimp only []
      cases hfc : findCurrent rows kf kv with
      | some c =>
        dsimp only []
        by_cases hh : c.row_hash == _compute_hash r af
        · rw [if_pos hh]
          exact ih hrest rows nid ins
        · rw [if_neg hh]
          cases hins : insertNew kf af now r (closeRow rows c.id now) nid with
          | error e => exact ⟨e, rfl⟩
          | ok pr =>
            obtain ⟨rows2, nid2⟩ := pr
            dsimp only []
            exact ih hrest rows2 nid2 (ins + 1)
      | none =>
        dsimp only []
        cases hins : insertNew kf af now r rows nid with
        | error e => exact ⟨e, rfl⟩
        | ok pr =>
          obtain ⟨rows2, nid2⟩ := pr
          dsimp only []
          exact ih hrest rows2 nid2 (ins + 1)

/-- Claim C2 amended: if some record of the batch lacks a declared key
field, `upsert_scd2` raises an exception and the entity table holds exactly
the rows it held before the call — every row of the batch, including
earlier valid ones, is rolled back; only the idempotent creation of the
(empty) table survives.  The exception is Python's builtin `KeyError` (the
code has no `UpsertError` class) whenever every key value that is present
is non-null; an earlier record binding a null key value can instead surface
SQLite's `NOT NULL` violation first. -/
theorem upsert_scd2_missing_key_rolls_back (table0 : Option EntityTable)
    (records : List Record) (kf : List String) (af : Option (List String)) (now : String)
    (ha : ∃ r ∈ records, ∃ f ∈ kf, r.has f = false) :
    (∃ e, upsert_scd2 table0 records kf af now = .err e (some (ensureTable table0))) ∧
    rowsOf (upsert_scd2 table0 records kf af now).table = rowsOf table0 ∧
    ((∀ r ∈ records, ∀ f ∈ kf, r.has f = true → (r.get f).isSome = true) →
      ∃ f', upsert_scd2 table0 records kf af now
        = .err (.keyError f') (some (ensureTable table0))) := by
  cases records with
  | nil => simp at ha
  | cons r0 rest =>
    rcases upsertLoop_error_of_missing_key_any kf
        (if (af.getD []).isEmpty then inferAttrFields r0 kf else af.getD []) now
        (r0 :: rest) ha (ensureTable table0).rows (ensureTable table0).nextId 0
      with ⟨e, hloop⟩
    have hupsert : upsert_scd2 table0 (r0 :: rest) kf af now
        = .err e (some (ensureTable table0)) := by
      simp only [upsert_scd2]
      rw [hloop]
    refine ⟨⟨e, hupsert⟩, ?_, ?_⟩
    · rw [hupsert]
      exact ensureTable_rows table0
    · intro hb
      rcases upsertLoop_error_of_missing_key kf
          (if (af.getD []).isEmpty then inferAttrFields r0 kf else af.getD []) now
          (r0 :: rest) ha hb (ensureTable table0).rows (ensureTable table0).nextId 0
        with ⟨f', hloop'⟩
      refine ⟨f', ?_⟩
      simp only [upsert_scd2]
      rw [hloop']

/-- Witness for C2 amended: a batch of one valid record then one missing the
key, against an existing table with one current row. -/
theorem upsert_scd2_missing_key_rolls_back_witness :
    (∃ r ∈ [recA1', recNoKey], ∃ f ∈ ["account_id"], r.has f = false) ∧
    ((∃ e, upsert_scd2 (some tblA) [recA1', recNoKey] ["account_id"] none
          "2024-03-01T00:00:00+00:00" = .err e (some (ensureTable (some tblA)))) ∧
      rowsOf (upsert_scd2 (some tblA) [recA1', recNoKey] ["account_id"] none
          "2024-03-01T00:00:00+00:00").table = rowsOf (some tblA) ∧
      ((∀ r ∈ [recA1', recNoKey], ∀ f ∈ ["account_id"],
          r.has f = true → (r.get f).isSome = true) →
        ∃ f', upsert_scd2 (some tblA) [recA1', recNoKey] ["account_id"] none
            "2024-03-01T00:00:00+00:00"
          = .err (.keyError f') (some (ensureTable (some tblA))))) :=
  ⟨by decide,
   upsert_scd2_missing_key_rolls_back (some tblA) [recA1', recNoKey] ["account_id"] none
     "2024-03-01T00:00:00+00:00" (by decide)⟩

/-! ## Claim C6: superseding a changed current row -/

lemma getLast?_append_singleton {α : Type} (l : List α) (a : α) :
    (l ++ [a]).getLast? = some a := by
  induction l with
  | nil => rfl
  | cons x l ih =>
    cases l with
    | nil => rfl
    | cons y l' =>
      simp only [List.cons_append] at ih ⊢
      rw [List.getLast?_cons_cons]
      exact ih

/-- Claim C6: when a record's hash differs from that of its existing current
row, the upsert closes the old row — only `valid_to` (set to the batch
timestamp) and `is_current` (set to 0) change, everything else is kept — and
appends a new row with `is_current = 1`, `valid_to` the sentinel
`9999-12-31T00:00:00+00:00`, and `valid_from` equal to the closed row's new
`valid_to`: both carry the same timestamp. -/
theorem upsert_scd2_supersede (t : EntityTable) (r : Record) (kf afl : List String)
    (now : String) (c : Row)
    (hkeys : ∀ f ∈ kf, (r.get f).isSome = true)
    (hafl : afl ≠ [])
    (hfc : findCurrent t.rows kf (kf.map (fun f => r.get f)) = some c)
    (hdiff : c.row_hash ≠ _compute_hash r afl) :
    ∃ (t' : EntityTable) (nr x : Row),
      upsert_scd2 (some t) [r] kf (some afl) now = .ok (some t') 1 ∧
      t'.rows.getLast? = some nr ∧
      nr.is_current = true ∧
      nr.valid_to = "9999-12-31T00:00:00+00:00" ∧
      nr.valid_from = now ∧
      x ∈ t'.rows ∧
      x.id = c.id ∧
      x.is_current = false ∧
      x.valid_to = now ∧
      x.valid_from = c.valid_from ∧
      x.fields = c.fields ∧
      x.row_hash = c.row_hash ∧
      nr.valid_from = x.valid_to := by
  have hnn : ((kf.map (fun f => r.get f)).any fun v => v.isNone) = false := by
    rw [List.any_eq_false]
    intro v hv
    rcases List.mem_map.mp hv with ⟨f, hf, rfl⟩
    simp only [Option.isNone_iff_eq_none]
    exact Option.ne_none_iff_isSome.mpr (hkeys f hf)
  have hempty : afl.isEmpty = false := by
    cases afl with
    | nil => exact absurd rfl hafl
    | cons a l => rfl
  have hbeq : (c.row_hash == _compute_hash r afl) = false := by
    rw [beq_eq_false_iff_ne]
    exact hdiff
  refine ⟨{ rows := closeRow t.rows c.id now ++ [mkNewRow kf afl now r t.nextId]
            nextId := t.nextId + 1 },
          mkNewRow kf afl now r t.nextId,
          { c with valid_to := now, is_current := false }, ?_, ?_, rfl, rfl, rfl,
          ?_, rfl, rfl, rfl, rfl, rfl, rfl, rfl⟩
  · simp only [upsert_scd2, Option.getD_some, hempty, Bool.false_eq_true, if_false,
      ensureTable]
    rw [upsertLoop]
    rw [keyValuesOf_ok_of_isSome r kf hkeys]
    dsimp only []
    rw [hfc]
    dsimp only []
    rw [hbeq]
    simp only [Bool.false_eq_true, if_false]
    unfold insertNew
    rw [hnn]
    simp only [Bool.false_eq_true, if_false]
    rw [upsertLoop]
  · exact getLast?_append_singleton _ _
  · apply List.mem_append_left
    unfold closeRow
    apply List.mem_map.mpr
    exact ⟨c, (findCurrent_some hfc).1, by rw [if_pos rfl]⟩

/-- Witness for C6: account `A1` changes balance from `100` to `200`: the
stored current row is closed and a fresh current row is appended sharing the
supersede timestamp. -/
theorem upsert_scd2_supersede_witness :
    (∀ f ∈ ["account_id"], (recA1'.get f).isSome = true) ∧
    (["balance"] : List String) ≠ [] ∧
    findCurrent tblA.rows ["account_id"] (["account_id"].map (fun f => recA1'.get f))
      = some rowA1v1 ∧
    rowA1v1.row_hash ≠ _compute_hash recA1' ["balance"] ∧
    (∃ (t' : EntityTable) (nr x : Row),
      upsert_scd2 (some tblA) [recA1'] ["account_id"] (some ["balance"])
          "2024-02-01T00:00:00+00:00" = .ok (some t') 1 ∧
      t'.rows.getLast? = some nr ∧
      nr.is_current = true ∧
      nr.valid_to = "9999-12-31T00:00:00+00:00" ∧
      nr.valid_from = "2024-02-01T00:00:00+00:00" ∧
      x ∈ t'.rows ∧
      x.id = rowA1v1.id ∧
      x.is_current = false ∧
      x.valid_to = "2024-02-01T00:00:00+00:00" ∧
      x.valid_from = rowA1v1.valid_from ∧
      x.fields = rowA1v1.fields ∧
      x.row_hash = rowA1v1.row_hash ∧
      nr.valid_from = x.valid_to) :=
  ⟨by decide, by decide, by decide, by decide,
   upsert_scd2_supersede tblA recA1' ["account_id"] ["balance"]
     "2024-02-01T00:00:00+00:00" rowA1v1 (by decide) (by decide) (by decide) (by decide)⟩

/-! ## Claim C7: rows are never deleted; closing touches only two columns -/

/-- The identity-carrying part of a row: everything except `valid_to` and
`is_current`. -/
def rowCore (a b : Row) : Prop :=
  a.id = b.id ∧ a.fields = b.fields ∧ a.valid_from = b.valid_from ∧ a.row_hash = b.row_hash

/-- `rows2` keeps every row of `rows0` at its position, with its identity,
column values, `valid_from` and hash intact (only `valid_to`/`is_current`
may differ), and may append further rows after them. -/
def preservesRows (rows0 rows2 : List Row) : Prop :=
  rows0.length ≤ rows2.length ∧
  ∀ (i : Nat) (a b : Row), rows0[i]? = some a → rows2[i]? = some b → rowCore a b

lemma rowCore_refl (a : Row) : rowCore a a := ⟨rfl, rfl, rfl, rfl⟩

lemma rowCore_trans {a b c : Row} (h1 : rowCore a b) (h2 : rowCore b c) : rowCore a c :=
  ⟨h1.1.trans h2.1, h1.2.1.trans h2.2.1, h1.2.2.1.trans h2.2.2.1, h1.2.2.2.trans h2.2.2.2⟩

lemma preservesRows_refl (rows : List Row) : preservesRows rows rows := by
  refine ⟨Nat.le_refl _, ?_⟩
  intro i a b ha hb
  rw [ha] at hb
  exact (Option.some_inj.mp hb) ▸ rowCore_refl a

lemma preservesRows_trans {r1 r2 r3 : List Row}
    (h12 : preservesRows r1 r2) (h23 : preservesRows r2 r3) : preservesRows r1 r3 := by
  refine ⟨Nat.le_trans h12.1 h23.1, ?_⟩
  intro i a c ha hc
  have hi : i < r1.length := (List.getElem?_eq_some.mp ha).1
  have hib : i < r2.length := Nat.lt_of_lt_of_le hi h12.1
  obtain ⟨y, hy⟩ : ∃ y, r2[i]? = some y := by
    rw [List.getElem?_eq_getElem hib]
    exact ⟨_, rfl⟩
  exact rowCore_trans (h12.2 i a y ha hy) (h23.2 i y c hy hc)

lemma preservesRows_closeRow (rows : List Row) (cid : Nat) (now : String) :
    preservesRows rows (closeRow rows cid now) := by
  unfold closeRow
  refine ⟨by rw [List.length_map], ?_⟩
  intro i a b ha hb
  rw [List.getElem?_map, ha] at hb
  have hb' : (if a.id = cid then { a with valid_to := now, is_current := false } else a)
      = b := Option.some_inj.mp hb
  by_cases hid : a.id = cid
  · rw [if_pos hid] at hb'
    rw [← hb']
    exact ⟨rfl, rfl, rfl, rfl⟩
  · rw [if_neg hid] at hb'
    exact hb' ▸ rowCore_refl a

lemma preservesRows_append (rows ext : List Row) : preservesRows rows (rows ++ ext) := by
  refine ⟨by simp, ?_⟩
  intro i a b ha hb
  have hi : i < rows.length := (List.getElem?_eq_some.mp ha).1
  rw [List.getElem?_append_left hi, ha] at hb
  exact (Option.some_inj.mp hb) ▸ rowCore_refl a

lemma upsertLoop_preservesRows (kf af : List String) (now : String) :
    ∀ (recs : List Record) (rows : List Row) (nid ins : Nat)
      (rows2 : List Row) (nid2 ins2 : Nat),
      upsertLoop kf af now recs rows nid ins = .ok (rows2, nid2, ins2) →
      preservesRows rows rows2 := by
  intro recs
  induction recs with
  | nil =>
    intro rows nid ins rows2 nid2 ins2 heq
    simp only [upsertLoop, Except.ok.injEq, Prod.mk.injEq] at heq
    exact heq.1 ▸ preservesRows_refl rows
  | cons r rest ih =>
    intro rows nid ins rows2 nid2 ins2 heq
    simp only [upsertLoop] at heq
    cases hkvr : keyValuesOf r kf with
    | error e => rw [hkvr] at heq; cases heq
    | ok kvr =>
      rw [hkvr] at heq
      dsimp only [] at heq
      cases hfc : findCurrent rows kf kvr with
      | some c =>
        rw [hfc] at heq
        dsimp only [] at heq
        by_cases hh : c.row_hash == _compute_hash r af
        · rw [if_pos hh] at heq
          exact ih rows nid ins rows2 nid2 ins2 heq
        · rw [if_neg hh] at heq
          cases hins : insertNew kf af now r (closeRow rows c.id now) nid with
          | error e => rw [hins] at heq; dsimp only [] at heq; cases heq
          | ok pr =>
            obtain ⟨rowsMid, nidMid⟩ := pr
            rw [hins] at heq
            dsimp only [] at heq
            unfold insertNew at hins
            split at hins
            · cases hins
            · have hrowsMid : rowsMid
                  = closeRow rows c.id now ++ [mkNewRow kf af now r nid] :=
                ((Prod.mk.injEq _ _ _ _).mp (Except.ok.inj hins)).1.symm
              refine preservesRows_trans ?_ (ih rowsMid nidMid (ins + 1) rows2 nid2 ins2 heq)
              rw [hrowsMid]
              exact preservesRows_trans (preservesRows_closeRow rows c.id now)
                (preservesRows_append _ _)
      | none =>
        rw [hfc] at heq
        dsimp only [] at heq
        cases hins : insertNew kf af now r rows nid with
        | error e => rw [hins] at heq; dsimp only [] at heq; cases heq
        | ok pr =>
          obtain ⟨rowsMid, nidMid⟩ := pr
          rw [hins] at heq
          dsimp only [] at heq
          unfold insertNew at hins
          split at hins
          · cases hins
          · have hrowsMid : rowsMid = rows ++ [mkNewRow kf af now r nid] :=
              ((Prod.mk.injEq _ _ _ _).mp (Except.ok.inj hins)).1.symm
            refine preservesRows_trans ?_ (ih rowsMid nidMid (ins + 1) rows2 nid2 ins2 heq)
            rw [hrowsMid]
            exact preservesRows_append _ _

/-- Claim C7: no operation deletes an entity or history row, and closing a
superseded current row rewrites only its `valid_to` and `is_current`
columns.  Conjuncts: (1) `upsert_scd2` keeps every pre-existing row at its
position with identity, column values, `valid_from` and hash intact;
(2) the idempotent table creation keeps the rows; (3) the close `UPDATE`
preserves the row count; (4) a targeted row reappears with only
`valid_to`/`is_current` changed, and every non-targeted row reappears
unchanged; (5) `log_history` only appends to the history table
(`fetch_history` is a pure read and does not appear in the state at all). -/
theorem scd2_no_delete_close_frame :
    (∀ (table0 : Option EntityTable) (records : List Record) (kf : List String)
        (af : Option (List String)) (now : String),
      preservesRows (rowsOf table0)
        (rowsOf (upsert_scd2 table0 records kf af now).table)) ∧
    (∀ table0 : Option EntityTable, (ensureTable table0).rows = rowsOf table0) ∧
    (∀ (rows : List Row) (cid : Nat) (now : String),
      (closeRow rows cid now).length = rows.length) ∧
    (∀ (rows : List Row) (cid : Nat) (now : String), ∀ x ∈ rows,
      (x.id = cid → { x with valid_to := now, is_current := false } ∈ closeRow rows cid now) ∧
      (x.id ≠ cid → x ∈ closeRow rows cid now)) ∧
    (∀ (db : HistoryDB) (jn et st : String) (sa ea : Option String)
        (dm rc : Option Int) (dt : Option String) (now : String),
      ∃ ev, (log_history db jn et st sa ea dm rc dt now).1.events = db.events ++ [ev]) := by
  refine ⟨?_, ensureTable_rows, ?_, ?_, ?_⟩
  · intro table0 records kf af now
    cases records with
    | nil => exact preservesRows_refl _
    | cons r0 rest =>
      simp only [upsert_scd2]
      cases hloop : upsertLoop kf
          (if (af.getD []).isEmpty then inferAttrFields r0 kf else af.getD []) now
          (r0 :: rest) (ensureTable table0).rows (ensureTable table0).nextId 0 with
      | error e =>
        simp only [hloop, UpsertResult.table, rowsOf]
        rw [ensureTable_rows]
        exact preservesRows_refl _
      | ok out =>
        obtain ⟨rows2, nid2, ins2⟩ := out
        simp only [hloop, UpsertResult.table, rowsOf]
        have := upsertLoop_preservesRows kf _ now (r0 :: rest)
          (ensureTable table0).rows (ensureTable table0).nextId 0 rows2 nid2 ins2 hloop
        rwa [ensureTable_rows] at this
  · intro rows cid now
    unfold closeRow
    rw [List.length_map]
  · intro rows cid now x hx
    constructor
    · intro hid
      unfold closeRow
      exact List.mem_map.mpr ⟨x, hx, by rw [if_pos hid]⟩
    · intro hid
      unfold closeRow
      exact List.mem_map.mpr ⟨x, hx, by rw [if_neg hid]⟩
  · intro db jn et st sa ea dm rc dt now
    exact ⟨_, rfl⟩

/-- Witness for C7 at a concrete input: upserting into the sample table
keeps its stored row, and the close `UPDATE` returns the targeted row with
only the two versioning columns changed. -/
theorem scd2_no_delete_close_frame_witness :
    preservesRows (rowsOf (some tblA))
      (rowsOf (upsert_scd2 (some tblA) [recA1'] ["account_id"] none
        "2024-02-01T00:00:00+00:00").table) ∧
    { rowA1v1 with valid_to := "2024-02-01T00:00:00+00:00", is_current := false }
      ∈ closeRow [rowA1v1] 1 "2024-02-01T00:00:00+00:00" :=
  ⟨scd2_no_delete_close_frame.1 (some tblA) [recA1'] ["account_id"] none
     "2024-02-01T00:00:00+00:00",
   (scd2_no_delete_close_frame.2.2.2.1 [rowA1v1] 1 "2024-02-01T00:00:00+00:00"
     rowA1v1 (by decide)).1 (by decide)⟩

/-! ## Claim C4: idempotence of a duplicate batch -/

/-- The key tuple of a record under the declared key fields. -/
def keyTuple (kf : List String) (r : Record) : List (Option String) :=
  kf.map (fun f => r.get f)

/-- The rows a batch of all-new records inserts, with consecutive rowids. -/
def freshRows (kf af : List String) (now : String) : List Record → Nat → List Row
  | [], _ => []
  | r :: rest, nid => mkNewRow kf af now r nid :: freshRows kf af now rest (nid + 1)

lemma freshRows_length (kf af : List String) (now : String) :
    ∀ (recs : List Record) (nid : Nat), (freshRows kf af now recs nid).length = recs.length := by
  intro recs
  induction recs with
  | nil => intro nid; rfl
  | cons r rest ih => intro nid; simp [freshRows, ih]

lemma findCurrent_eq_none {rows : List Row} {kf : List String} {kv : List (Option String)}
    (h : currentCount rows kf kv = 0) : findCurrent rows kf kv = none := by
  unfold currentCount at h
  rw [List.length_eq_zero] at h
  unfold findCurrent
  rw [h]
  rfl

lemma mkNewRow_matches_self (kf af : List String) (now : String) (r : Record) (nid : Nat)
    (hsome : ∀ f ∈ kf, (r.get f).isSome = true) :
    keyMatches (mkNewRow kf af now r nid).fields kf (keyTuple kf r) = true :=
  keyMatches_self (mkNewRow kf af now r nid).fields r kf
    (fun f hf => mkNewRow_get kf af now r nid f (List.mem_append_left af hf)) hsome

lemma mkNewRow_matches_only_self (kf af : List String) (now : String) (r' : Record)
    (nid : Nat) (kv : List (Option String)) (hkv : keyTuple kf r' ≠ kv) :
    keyMatches (mkNewRow kf af now r' nid).fields kf kv = false := by
  cases hm : keyMatches (mkNewRow kf af now r' nid).fields kf kv with
  | false => rfl
  | true =>
    have := keyMatches_inj (mkNewRow kf af now r' nid).fields r' kf kv hm
      (fun f hf => mkNewRow_get kf af now r' nid f (List.mem_append_left af hf))
    exact absurd this.symm hkv

lemma freshRows_filter_nil (kf af : List String) (now : String) :
    ∀ (recs : List Record) (nid : Nat) (kv : List (Option String)),
      (∀ r' ∈ recs, keyTuple kf r' ≠ kv) →
      (freshRows kf af now recs nid).filter
        (fun row => row.is_current && keyMatches row.fields kf kv) = [] := by
  intro recs
  induction recs with
  | nil => intro nid kv _; rfl
  | cons r' rest ih =>
    intro nid kv hne
    simp only [freshRows, List.filter_cons]
    rw [mkNewRow_matches_only_self kf af now r' nid kv (hne r' (by simp))]
    simp only [Bool.and_false, Bool.false_eq_true, if_false]
    exact ih (nid + 1) kv (fun x hx => hne x (by simp [hx]))

lemma freshRows_findCurrent (kf af : List String) (now : String) :
    ∀ (recs : List Record) (nid : Nat) (r : Record),
      r ∈ recs →
      List.Pairwise (fun a b => keyTuple kf a ≠ keyTuple kf b) recs →
      (∀ r' ∈ recs, ∀ f ∈ kf, (r'.get f).isSome = true) →
      ∃ c, findCurrent (freshRows kf af now recs nid) kf (keyTuple kf r) = some c ∧
        c.row_hash = _compute_hash r af := by
  intro recs
  induction recs with
  | nil => intro nid r hmem; cases hmem
  | cons r0 rest ih =>
    intro nid r hmem hpw hsome
    rw [List.pairwise_cons] at hpw
    obtain ⟨hhead, htail⟩ := hpw
    by_cases hk : keyTuple kf r = keyTuple kf r0
    · have hr : r = r0 := by
        rcases List.mem_cons.mp hmem with h | h
        · exact h
        · exact absurd hk.symm (hhead r h)
      refine ⟨mkNewRow kf af now r0 nid, ?_, by subst hr; rfl⟩
      unfold findCurrent
      simp only [freshRows, List.filter_cons]
      rw [hk]
      have hcond : ((mkNewRow kf af now r0 nid).is_current
          && keyMatches (mkNewRow kf af now r0 nid).fields kf (keyTuple kf r0)) = true := by
        rw [mkNewRow_matches_self kf af now r0 nid (fun f hf => hsome r0 (by simp) f hf)]
        rfl
      rw [if_pos hcond]
      rw [freshRows_filter_nil kf af now rest (nid + 1) (keyTuple kf r0)
        (fun x hx => (hhead x hx).symm)]
      rfl
    · have hr : r ∈ rest := by
        rcases List.mem_cons.mp hmem with h | h
        · exact absurd (h ▸ rfl) hk
        · exact h
      have hrec := ih (nid + 1) r hr htail (fun x hx => hsome x (by simp [hx]))
      unfold findCurrent at hrec ⊢
      simp only [freshRows, List.filter_cons]
      rw [mkNewRow_matches_only_self kf af now r0 nid (keyTuple kf r) (fun hcontra => hk hcontra.symm)]
      simp only [Bool.and_false, Bool.false_eq_true, if_false]
      exact hrec

lemma upsertLoop_fresh (kf af : List String) (now : String) :
    ∀ (recs : List Record) (rows : List Row) (nid ins : Nat),
      (∀ r ∈ recs, ∀ f ∈ kf, (r.get f).isSome = true) →
      (∀ r ∈ recs, currentCount rows kf (keyTuple kf r) = 0) →
      List.Pairwise (fun a b => keyTuple kf a ≠ keyTuple kf b) recs →
      upsertLoop kf af now recs rows nid ins
        = .ok (rows ++ freshRows kf af now recs nid, nid + recs.length, ins + recs.length) := by
  intro recs
  induction recs with
  | nil => intro rows nid ins _ _ _; simp [upsertLoop, freshRows]
  | cons r rest ih =>
    intro rows nid ins hsome hzero hpw
    rw [List.pairwise_cons] at hpw
    obtain ⟨hhead, htail⟩ := hpw
    have hsomer : ∀ f ∈ kf, (r.get f).isSome = true := hsome r (by simp)
    have hnn : ((kf.map (fun f => r.get f)).any fun v => v.isNone) = false := by
      rw [List.any_eq_false]
      intro v hv
      rcases List.mem_map.mp hv with ⟨f, hf, rfl⟩
      simp only [Option.isNone_iff_eq_none]
      exact Option.ne_none_iff_isSome.mpr (hsomer f hf)
    simp only [upsertLoop]
    rw [keyValuesOf_ok_of_isSome r kf hsomer]
    dsimp only []
    have hfc : findCurrent rows kf (List.map (fun f => r.get f) kf) = none :=
      findCurrent_eq_none (hzero r (by simp))
    rw [hfc]
    dsimp only []
    unfold insertNew
    rw [hnn]
    simp only [Bool.false_eq_true, if_false]
    rw [ih (rows ++ [mkNewRow kf af now r nid]) (nid + 1) (ins + 1)
      (fun x hx => hsome x (by simp [hx]))
      (fun x hx => by
        rw [currentCount_append_single]
        rw [mkNewRow_matches_only_self kf af now r nid (keyTuple kf x) (hhead x hx)]
        simp only [Bool.and_false, Bool.false_eq_true, if_false]
        rw [hzero x (by simp [hx])])
      htail]
    simp only [freshRows, Except.ok.injEq, Prod.mk.injEq, List.length_cons]
    refine ⟨by rw [List.append_assoc]; rfl, by omega, by omega⟩

lemma upsertLoop_skip (kf af : List String) (now : String) :
    ∀ (recs : List Record) (rows : List Row) (nid ins : Nat),
      (∀ r ∈ recs, ∀ f ∈ kf, (r.get f).isSome = true) →
      (∀ r ∈ recs, ∃ c, findCurrent rows kf (keyTuple kf r) = some c ∧
          c.row_hash = _compute_hash r af) →
      upsertLoop kf af now recs rows nid ins = .ok (rows, nid, ins) := by
  intro recs
  induction recs with
  | nil => intro rows nid ins _ _; rfl
  | cons r rest ih =>
    intro rows nid ins hsome hcur
    obtain ⟨c, hfc, hhash⟩ := hcur r (by simp)
    simp only [upsertLoop]
    rw [keyValuesOf_ok_of_isSome r kf (hsome r (by simp))]
    dsimp only []
    have hfc' : findCurrent rows kf (kf.map fun f => r.get f) = some c := hfc
    rw [hfc']
    dsimp only []
    have hcond : (c.row_hash == _compute_hash r af) = true := by
      rw [hhash]
      exact beq_self_eq_true _
    rw [if_pos hcond]
    exact ih rows nid ins (fun x hx => hsome x (by simp [hx]))
      (fun x hx => hcur x (by simp [hx]))

/-- Claim C4: upserting a batch of records with pairwise-distinct key tuples
(and non-null key values) into a fresh, empty entity table inserts them all
and returns the batch size; immediately repeating the identical call (at any
later timestamp) returns 0 and leaves the table — in particular its total
row count — unchanged. -/
theorem upsert_scd2_idempotent (records : List Record) (kf : List String)
    (af : Option (List String)) (now now2 : String)
    (hkeys : ∀ r ∈ records, ∀ f ∈ kf, (Record.get r f).isSome = true)
    (hdist : List.Pairwise (fun a b => keyTuple kf a ≠ keyTuple kf b) records) :
    ∃ t1 : EntityTable,
      upsert_scd2 (some { rows := [], nextId := 1 }) records kf af now
        = .ok (some t1) records.length ∧
      t1.rows.length = records.length ∧
      upsert_scd2 (some t1) records kf af now2 = .ok (some t1) 0 := by
  cases records with
  | nil => exact ⟨{ rows := [], nextId := 1 }, rfl, rfl, rfl⟩
  | cons r0 rest =>
    refine ⟨{ rows := freshRows kf
                (if (af.getD []).isEmpty then inferAttrFields r0 kf else af.getD [])
                now (r0 :: rest) 1
              nextId := 1 + (r0 :: rest).length }, ?_, ?_, ?_⟩
    · simp only [upsert_scd2, ensureTable]
      rw [upsertLoop_fresh kf _ now (r0 :: rest) [] 1 0 hkeys
        (fun x _ => rfl) hdist]
      simp only [List.nil_append, Nat.zero_add]
    · exact freshRows_length _ _ _ _ _
    · simp only [upsert_scd2, ensureTable]
      rw [upsertLoop_skip kf _ now2 (r0 :: rest) _ _ 0 hkeys
        (fun x hx => freshRows_findCurrent kf _ now (r0 :: rest) 1 x hx hdist hkeys)]

/-- Witness for C4: two records with distinct account identifiers. -/
theorem upsert_scd2_idempotent_witness :
    (∀ r ∈ [recA1, recB7], ∀ f ∈ ["account_id"], (Record.get r f).isSome = true) ∧
    List.Pairwise
      (fun a b => keyTuple ["account_id"] a ≠ keyTuple ["account_id"] b) [recA1, recB7] ∧
    ∃ t1 : EntityTable,
      upsert_scd2 (some { rows := [], nextId := 1 }) [recA1, recB7] ["account_id"] none
          "2024-01-01T00:00:00+00:00" = .ok (some t1) (List.length [recA1, recB7]) ∧
      t1.rows.length = List.length [recA1, recB7] ∧
      upsert_scd2 (some t1) [recA1, recB7] ["account_id"] none
          "2024-01-02T00:00:00+00:00" = .ok (some t1) 0 :=
  ⟨by decide, by decide,
   upsert_scd2_idempotent [recA1, recB7] ["account_id"] none
     "2024-01-01T00:00:00+00:00" "2024-01-02T00:00:00+00:00" (by decide) (by decide)⟩

/-! ## Claim C9: fetch_history ordering and bound -/

/-- Sample history event with identifier 1. -/
def evStart : HistoryEvent :=
  { id := 1
    job_name := "fetch_transactions"
    event_type := "start"
    status := "running"
    started_at := "2024-01-01T00:00:00+00:00"
    ended_at := none
    duration_ms := none
    row_count := none
    details := none }

/-- Sample history event with identifier 2. -/
def evMid : HistoryEvent :=
  { evStart with id := 2, event_type := "success", status := "ok"
                 started_at := "2024-01-02T00:00:00+00:00" }

/-- Sample history event with identifier 3. -/
def evEnd : HistoryEvent :=
  { evStart with id := 3, event_type := "success", status := "ok"
                 started_at := "2024-01-03T00:00:00+00:00" }

/-- Sample history table with a single logged event. -/
def histOne : HistoryDB := { events := [evStart], nextId := 2 }

/-- Sample history table with three logged events, oldest first. -/
def histThree : HistoryDB := { events := [evStart, evMid, evEnd], nextId := 4 }

/-- Counterexample for C9 (as stated, for *every* limit): SQLite treats a
negative `LIMIT` as "no limit", so `fetch_history(-1)` on a store holding
one event returns that event — more than the claimed bound of `-1`. -/
theorem fetch_history_negative_limit_unbounded :
    ¬ (((fetch_history histOne (-1)).length : Int) ≤ -1) ∧
    fetch_history histOne (-1) = [evStart] := by
  constructor
  · decide
  · decide

/-- Claim C9 amended: for every *non-negative* limit, `fetch_history`
returns at most `limit` events, sorted most-recent-first by identifier,
all drawn from the stored events, and favouring the largest identifiers:
any stored event left out has an identifier no larger than every returned
one.  (The function is a pure read: it computes its result from the stored
state and returns it without modifying anything.) -/
theorem fetch_history_spec (db : HistoryDB) (limit : Int) (h : 0 ≤ limit) :
    ((fetch_history db limit).length : Int) ≤ limit ∧
    List.Sorted byIdDesc (fetch_history db limit) ∧
    (∀ e ∈ fetch_history db limit, e ∈ db.events) ∧
    (∀ e ∈ fetch_history db limit, ∀ e2 ∈ db.events,
      e2 ∉ fetch_history db limit → e2.id ≤ e.id) := by
  have hs : List.Sorted byIdDesc (List.insertionSort byIdDesc db.events) :=
    List.sorted_insertionSort byIdDesc db.events
  have hperm : List.Perm (List.insertionSort byIdDesc db.events) db.events :=
    List.perm_insertionSort byIdDesc db.events
  have hfetch : fetch_history db limit
      = (List.insertionSort byIdDesc db.events).take limit.toNat := by
    unfold fetch_history sqliteLimit
    rw [if_neg (not_lt.mpr h)]
  refine ⟨?_, ?_, ?_, ?_⟩
  · rw [hfetch]
    have hlen : ((List.insertionSort byIdDesc db.events).take limit.toNat).length
        ≤ limit.toNat := by
      rw [List.length_take]
      exact Nat.min_le_left _ _
    omega
  · rw [hfetch]
    exact List.Pairwise.sublist (List.take_sublist _ _) hs
  · intro e he
    rw [hfetch] at he
    exact hperm.subset (List.mem_of_mem_take he)
  · intro e he e2 he2 hnot
    rw [hfetch] at he hnot
    have he2s : e2 ∈ List.insertionSort byIdDesc db.events := hperm.mem_iff.mpr he2
    rw [← List.take_append_drop limit.toNat (List.insertionSort byIdDesc db.events)] at hs he2s
    rcases List.mem_append.mp he2s with hin | hin
    · exact absurd hin hnot
    · exact List.pairwise_append.mp hs |>.2.2 e he e2 hin

/-- Witness for C9 amended: three logged events, `fetch_history 2`. -/
theorem fetch_history_spec_witness :
    (0 : Int) ≤ 2 ∧
    (((fetch_history histThree 2).length : Int) ≤ 2 ∧
      List.Sorted byIdDesc (fetch_history histThree 2) ∧
      (∀ e ∈ fetch_history histThree 2, e ∈ histThree.events) ∧
      (∀ e ∈ fetch_history histThree 2, ∀ e2 ∈ histThree.events,
        e2 ∉ fetch_history histThree 2 → e2.id ≤ e.id)) :=
  ⟨by decide, fetch_history_spec histThree 2 (by decide)⟩
